import Mathlib

/-!
Shallow embedding of the sandy-pplx chat-over-search client core:
message parsing of the embedded thinking segment (Chat.tsx, parseMessage and
the streaming effect), the query-reformulation normalization pipeline
(Chat.tsx, handleSubmit), and the search hook (useSearch: performSearch and
createResultStream).  Strings are modelled as Lean Strings / lists of
characters; JavaScript regular-expression operations are modelled by
explicit scanners with the same observable behaviour.
-/

namespace SandyPplx

/-- Whitespace test modelling the JavaScript whitespace class used by
String.prototype.trim and the regex class backslash-s (ASCII part; the
relevant inputs in this development only involve space, tab, newline,
carriage return). -/
def isWsChar (c : Char) : Bool :=
  c == ' ' || c == '\t' || c == '\n' || c == '\r' || c == '\x0b' || c == '\x0c'

/-- Drop whitespace from both ends, modelling String.prototype.trim. -/
def trimChars (l : List Char) : List Char :=
  ((l.dropWhile isWsChar).reverse.dropWhile isWsChar).reverse

def strOfChars (l : List Char) : String := ⟨l⟩

/-- Model of s.trim() on Strings. -/
def strTrim (s : String) : String := strOfChars (trimChars s.data)

/-- Bool test: the pattern is an initial run of the list. -/
def leadsWith : List Char → List Char → Bool
  | [], _ => true
  | _ :: _, [] => false
  | c :: p, d :: l => c == d && leadsWith p l

/-- Leftmost-occurrence search, modelling a regular-expression search for a
literal pattern: returns the text before the first occurrence and the text
after it.  (Used only with nonempty patterns.) -/
def splitFirst (pat : List Char) : List Char → Option (List Char × List Char)
  | [] => none
  | c :: l =>
    if leadsWith pat (c :: l) then
      some ([], (c :: l).drop pat.length)
    else
      match splitFirst pat l with
      | some (pre, post) => some (c :: pre, post)
      | none => none

/-- Substring test, modelling String.prototype.includes. -/
def containsSub (pat l : List Char) : Bool := (splitFirst pat l).isSome

/-- Remove the first occurrence of the pattern, modelling
String.prototype.replace with a plain-string pattern and empty replacement. -/
def removeFirst (pat l : List Char) : List Char :=
  match splitFirst pat l with
  | some (pre, post) => pre ++ post
  | none => l

def tagOpen : List Char := ['<', 't', 'h', 'i', 'n', 'k', '>']

def tagClose : List Char := ['<', '/', 't', 'h', 'i', 'n', 'k', '>']

/-- Result of parsing an assistant message (Chat.tsx parseMessage). -/
structure ParsedMessage where
  thinking : Option String
  content : String
deriving DecidableEq

/-- Chat.tsx lines 19-30: match the regex for a well-formed
thinking-delimiter pair (lazy interior, so: first opening tag, then the
first closing tag after it); on a match return the trimmed interior and the
rest with the matched region removed (first match only) and trimmed;
otherwise the whole text trimmed with no thinking part. -/
def parseMessage (content : String) : ParsedMessage :=
  match splitFirst tagOpen content.data with
  | some (pre, rest) =>
    match splitFirst tagClose rest with
    | some (mid, post) =>
      ⟨some (strOfChars (trimChars mid)), strOfChars (trimChars (pre ++ post))⟩
    | none => ⟨none, strTrim content⟩
  | none => ⟨none, strTrim content⟩

end SandyPplx

namespace SandyPplx

/-- One search result (useSearch.ts SearchResult).  The relevance score is
modelled as a rational number. -/
structure SearchResult where
  title : String
  url : String
  content : String
  score : ℚ
  published_date : Option String
deriving DecidableEq

/-- The streaming view state kept by the Chat component
(Chat.tsx StreamingState). -/
structure StreamingState where
  thinking : String
  content : String
  isThinking : Bool
  sources : List SearchResult
deriving DecidableEq

/-- Chat.tsx lines 173-206, the body of the streaming effect as a function
of the previous state and the accumulated raw buffer of the in-progress
assistant message: a matched delimiter pair publishes trimmed interior and
remainder and leaves the thinking phase; an opening tag with no close
publishes the buffer with the first opening tag removed (trimmed) as
thinking text and empty content, staying in the thinking phase; otherwise
the trimmed buffer updates whichever buffer the current phase selects. -/
def chatChunkStep (st : StreamingState) (content : String) : StreamingState :=
  match splitFirst tagOpen content.data with
  | some (pre, rest) =>
    match splitFirst tagClose rest with
    | some (mid, post) =>
      { st with thinking := strOfChars (trimChars mid),
                content := strOfChars (trimChars (pre ++ post)),
                isThinking := false }
    | none =>
      { st with thinking := strOfChars (trimChars (pre ++ rest)),
                content := "",
                isThinking := true }
  | none =>
    if st.isThinking then { st with thinking := strTrim content }
    else { st with content := strTrim content }

/-- Chat.tsx lines 82-88: the state reset performed when a new turn is
submitted, before reformulation and search start. -/
def turnSubmittedReset (st : StreamingState) : StreamingState :=
  { st with thinking := "", content := "", isThinking := true }

/-- Scanner state step for the global tag-stripping regex: remove every
span from an opening angle bracket through the first closing angle bracket
after it; an opening bracket with no later closing bracket stays, with
everything after it, verbatim (no further match can start there).  The
second argument buffers, in reverse, the characters of a candidate span
whose closing bracket has not been seen yet. -/
def stripTagsGo : List Char → Option (List Char) → List Char
  | [], none => []
  | [], some buf => buf.reverse
  | c :: l, none =>
    if c == '<' then stripTagsGo l (some [c]) else c :: stripTagsGo l none
  | c :: l, some buf =>
    if c == '>' then stripTagsGo l none else stripTagsGo l (some (c :: buf))

/-- Chat.tsx line 130: global replacement of every angle-bracket-delimited
span by the empty string. -/
def stripTagChars (l : List Char) : List Char := stripTagsGo l none

/-- The character class of the boundary-cleanup regex on Chat.tsx line 131:
a double quote or a whitespace character. -/
def isQuoteOrWs (c : Char) : Bool := c == '\"' || isWsChar c

/-- Chat.tsx line 131: strip the leading and the trailing run of quote or
whitespace characters (anchored at the two ends of the string only). -/
def stripQuoteWsEnds (l : List Char) : List Char :=
  ((l.dropWhile isQuoteOrWs).reverse.dropWhile isQuoteOrWs).reverse

/-- Chat.tsx line 132: global replacement of newlines by spaces. -/
def newlinesToSpaces (l : List Char) : List Char :=
  l.map (fun c => if c == '\n' then ' ' else c)

/-- Chat.tsx lines 129-133: the normalization applied to the raw streamed
reformulation output: strip markup spans, strip quote and whitespace runs
at both ends, replace newlines by spaces, and trim. -/
def normalizeReform (raw : String) : String :=
  strOfChars (trimChars (newlinesToSpaces (stripQuoteWsEnds (stripTagChars raw.data))))

/-- Chat.tsx lines 92-137: the search query used for the turn.  The second
argument is the raw accumulated reformulation output when a reformulation
round-trip happened and succeeded (follow-up turn with an ok response), and
none otherwise.  The source keeps the original input unless the raw output
is nonempty after a plain whitespace trim, in which case it uses the
normalized output. -/
def chooseSearchQuery (currentInput : String) (reform : Option String) : String :=
  match reform with
  | none => currentInput
  | some raw => if strTrim raw = "" then currentInput else normalizeReform raw

/-- The shared state of the useSearch hook (useSearch.ts). -/
structure SearchState where
  isSearching : Bool
  searchResults : List SearchResult
  searchError : Option String
deriving DecidableEq

/-- The observable outcome of the fetch performed by performSearch:
an ok response with a parsed body whose results field is present or
absent/null; a non-ok response with a parsed body whose details field is
present or absent (performSearch throws an Error carrying the details text,
or a generic text when details is absent); or a thrown Error (network
failure or malformed body) carrying the runtime's message. -/
inductive FetchOutcome where
  | success (resultsField : Option (List SearchResult))
  | httpFailure (details : Option String)
  | thrown (message : String)
deriving DecidableEq

/-- The failure outcomes: non-success response, network error, or
malformed body. -/
def FetchOutcome.isFailure : FetchOutcome → Bool
  | .success _ => false
  | .httpFailure _ => true
  | .thrown _ => true

/-- useSearch.ts lines 12-21: sort the result list by score descending and
yield the results in order.  Array.prototype.sort with the comparator
(a, b) => b.score - a.score is, per the ECMAScript specification, a stable
sort that is nonincreasing in score, which is what List.mergeSort with
this comparison computes; the fixed 150ms pacing delay between yields has
no bearing on the produced order and is not modelled. -/
def createResultStream (results : List SearchResult) : List SearchResult :=
  results.mergeSort (fun a b => decide (b.score ≤ a.score))

/-- useSearch.ts lines 28-58: performSearch as a function of the fetch
outcome and the hook state before the call; returns the hook state after
the call together with the list of results the returned stream yields.
On an ok response it publishes the results field (empty when absent/null)
and returns the sorted stream of the same list; on a failure it catches,
records the thrown Error's message (the details text when the server
supplied one, the generic text otherwise), publishes an empty result list
and returns an empty stream instead of raising. -/
def performSearch : FetchOutcome → SearchState → SearchState × List SearchResult
  | .success r, st =>
    ({ st with isSearching := false, searchResults := r.getD [],
               searchError := none },
      createResultStream (r.getD []))
  | .httpFailure d, st =>
    ({ st with isSearching := false, searchResults := [],
               searchError := some (d.getD "Search request failed") },
      createResultStream [])
  | .thrown msg, st =>
    ({ st with isSearching := false, searchResults := [],
               searchError := some msg },
      createResultStream [])

/-- Chat.tsx lines 143-150: one iteration of the source-accumulation loop.
The first component is the local newSources array, the second the sources
field last published to the streaming state. -/
def sourceArrivalStep (acc : List SearchResult × List SearchResult)
    (r : SearchResult) : List SearchResult × List SearchResult :=
  (acc.1 ++ [r], acc.1 ++ [r])

/-- Chat.tsx lines 143-150: the sources visible in the streaming state
after draining the whole produced search stream, starting from the
previously published sources (which the loop never clears up front). -/
def sourcesAfterStream (prev stream : List SearchResult) : List SearchResult :=
  (stream.foldl sourceArrivalStep ([], prev)).2

/-! Helper lemmas about the scanning primitives. -/

theorem leadsWith_self_append (pat b : List Char) : leadsWith pat (pat ++ b) = true := by
  induction pat with
  | nil => rfl
  | cons c p ih => simp [leadsWith, ih]

theorem containsSub_nil (pat : List Char) : containsSub pat [] = false := rfl

theorem containsSub_cons (pat : List Char) (c : Char) (l : List Char) :
    containsSub pat (c :: l) = (leadsWith pat (c :: l) || containsSub pat l) := by
  by_cases h : leadsWith pat (c :: l) = true
  · simp [containsSub, splitFirst, h]
  · rw [Bool.not_eq_true] at h
    cases hs : splitFirst pat l with
    | none => simp [containsSub, splitFirst, h, hs]
    | some pr => cases pr with
      | mk pre post => simp [containsSub, splitFirst, h, hs]

theorem splitFirst_first_occ (pat : List Char) (hpat : pat ≠ []) :
    ∀ (a b : List Char),
      (∀ i, i < a.length → leadsWith pat ((a ++ pat ++ b).drop i) = false) →
      splitFirst pat (a ++ pat ++ b) = some (a, b) := by
  intro a
  induction a with
  | nil =>
    intro b _
    obtain ⟨c, p, rfl⟩ : ∃ c p, pat = c :: p := by
      cases pat with
      | nil => exact absurd rfl hpat
      | cons c p => exact ⟨c, p, rfl⟩
    have h1 : leadsWith (c :: p) (c :: (p ++ b)) = true := by
      have := leadsWith_self_append (c :: p) b
      simpa using this
    simp only [List.nil_append, List.cons_append]
    simp [splitFirst, h1, List.drop_left]
  | cons x a' ih =>
    intro b h
    have h0 : leadsWith pat (x :: (a' ++ pat ++ b)) = false := by
      have h' := h 0 (by simp)
      simp only [List.drop_zero, List.cons_append] at h'
      exact h'
    have hrec : splitFirst pat (a' ++ pat ++ b) = some (a', b) := by
      apply ih
      intro i hi
      have h' := h (i + 1) (by simpa using Nat.succ_lt_succ hi)
      simp only [List.drop_succ_cons, List.cons_append] at h'
      exact h'
    show splitFirst pat (x :: (a' ++ pat ++ b)) = some (x :: a', b)
    rw [splitFirst, h0]
    simp only [Bool.false_eq_true, if_false, hrec]

theorem leadsWith_ex (pat l : List Char) : leadsWith pat l = true ↔ ∃ v, l = pat ++ v := by
  induction pat generalizing l with
  | nil => simp [leadsWith]
  | cons c p ih =>
    cases l with
    | nil =>
      constructor
      · intro h; exact absurd h (by simp [leadsWith])
      · rintro ⟨v, hv⟩; exact absurd hv (by simp)
    | cons d t =>
      constructor
      · intro h
        have h2 : c = d ∧ leadsWith p t = true := by
          simpa [leadsWith, Bool.and_eq_true] using h
        obtain ⟨v, rfl⟩ := (ih t).mp h2.2
        exact ⟨v, by simp [h2.1]⟩
      · rintro ⟨v, hv⟩
        have h2 : d = c ∧ t = p ++ v := by simpa using hv
        obtain ⟨rfl, rfl⟩ := h2
        simp [leadsWith, (ih (p ++ v)).mpr ⟨v, rfl⟩]

theorem containsSub_ex (pat : List Char) (hpat : pat ≠ []) (l : List Char) :
    containsSub pat l = true ↔ ∃ u v, l = u ++ pat ++ v := by
  induction l with
  | nil =>
    rw [containsSub_nil]
    constructor
    · intro h; exact absurd h (by simp)
    · rintro ⟨u, v, hv⟩
      have := hv.symm
      simp only [List.append_eq_nil] at this
      exact absurd this.1.2 hpat
  | cons c t ih =>
    rw [containsSub_cons]
    constructor
    · intro h
      cases Bool.or_eq_true_iff.mp h with
      | inl hl =>
        obtain ⟨v, hv⟩ := (leadsWith_ex pat _).mp hl
        exact ⟨[], v, by simpa using hv⟩
      | inr hr =>
        obtain ⟨u, v, rfl⟩ := ih.mp hr
        exact ⟨c :: u, v, by simp⟩
    · rintro ⟨u, v, hv⟩
      cases u with
      | nil =>
        have h1 : leadsWith pat (c :: t) = true := by
          apply (leadsWith_ex pat (c :: t)).mpr
          exact ⟨v, by simpa using hv⟩
        simp [h1]
      | cons x u' =>
        have h2 : c = x ∧ t = u' ++ pat ++ v := by simpa using hv
        have h3 : containsSub pat t = true := ih.mpr ⟨u', v, h2.2⟩
        simp [h3]

theorem containsSub_append_left (pat pre post : List Char) (hpat : pat ≠ [])
    (h : containsSub pat post = true) : containsSub pat (pre ++ post) = true := by
  obtain ⟨u, v, rfl⟩ := (containsSub_ex pat hpat post).mp h
  exact (containsSub_ex pat hpat _).mpr ⟨pre ++ u, v, by simp⟩

theorem dropWhile_occ (q : Char → Bool) (pat : List Char) (c : Char) (p : List Char)
    (hpat : pat = c :: p) (hc : q c = false) :
    ∀ (u v : List Char),
      ∃ u2, (u ++ pat ++ v).dropWhile q = u2 ++ pat ++ v := by
  intro u
  induction u with
  | nil =>
    intro v
    refine ⟨[], ?_⟩
    subst hpat
    simp [List.dropWhile_cons, hc]
  | cons x u' ih =>
    intro v
    by_cases hx : q x = true
    · obtain ⟨u2, hu2⟩ := ih v
      refine ⟨u2, ?_⟩
      simp only [List.cons_append, List.dropWhile_cons, hx, if_true]
      exact hu2
    · rw [Bool.not_eq_true] at hx
      refine ⟨x :: u', ?_⟩
      simp only [List.cons_append, List.dropWhile_cons, hx]
      simp

theorem containsSub_trimChars (pat l : List Char) (hpat : pat ≠ [])
    (hws : ∀ ch ∈ pat, isWsChar ch = false)
    (h : containsSub pat l = true) : containsSub pat (trimChars l) = true := by
  obtain ⟨u, v, rfl⟩ := (containsSub_ex pat hpat l).mp h
  obtain ⟨c, p, rfl⟩ : ∃ c p, pat = c :: p := by
    cases pat with
    | nil => exact absurd rfl hpat
    | cons c p => exact ⟨c, p, rfl⟩
  obtain ⟨u2, h1⟩ :=
    dropWhile_occ isWsChar (c :: p) c p rfl (hws c (List.mem_cons_self c p)) u v
  obtain ⟨c', p', hrev⟩ : ∃ c' p', (c :: p).reverse = c' :: p' := by
    cases hr : (c :: p).reverse with
    | nil => exact absurd (by simpa using congrArg List.reverse hr) (List.cons_ne_nil c p)
    | cons c' p' => exact ⟨c', p', rfl⟩
  have hc' : isWsChar c' = false := by
    apply hws
    rw [← List.mem_reverse, hrev]
    exact List.mem_cons_self c' p'
  obtain ⟨w, h2⟩ := dropWhile_occ isWsChar (c' :: p') c' p' rfl hc' v.reverse u2.reverse
  apply (containsSub_ex (c :: p) hpat (trimChars (u ++ (c :: p) ++ v))).mpr
  refine ⟨u2, w.reverse, ?_⟩
  unfold trimChars
  rw [h1]
  have hrw : (u2 ++ (c :: p) ++ v).reverse = v.reverse ++ (c' :: p') ++ u2.reverse := by
    rw [← hrev]; simp
  rw [hrw, h2]
  have hrev2 : (c' :: p').reverse = c :: p := by rw [← hrev]; simp
  rw [List.reverse_append, List.reverse_append, List.reverse_reverse, hrev2,
    List.append_assoc]

/-! Claim theorems. -/

/-- C2: Scenario 3.  Starting from the thinking phase with empty buffers and
applying the chunk-arrival recomputation to the accumulated buffers after
each of the three chunks, the phase flag stays Thinking (true) after the
first two chunks with empty answer text, and from the third chunk the phase
is Answering (false) with thinking text "Evaluating sources" and the
post-delimiter content as answer text. -/
theorem chatChunkStep_scenario3 :
    (chatChunkStep ⟨"", "", true, []⟩ "<th").isThinking = true ∧
    (chatChunkStep ⟨"", "", true, []⟩ "<th").content = "" ∧
    (chatChunkStep (chatChunkStep ⟨"", "", true, []⟩ "<th") "<think>Eval").isThinking
      = true ∧
    (chatChunkStep (chatChunkStep ⟨"", "", true, []⟩ "<th") "<think>Eval").content
      = "" ∧
    chatChunkStep (chatChunkStep (chatChunkStep ⟨"", "", true, []⟩ "<th") "<think>Eval")
        "<think>Evaluating sources</think>## Overview\n..." =
      ⟨"Evaluating sources", "## Overview\n...", false, []⟩ := by
  decide

/-- C3 counterexample: the normalization of the spec's literal unit-test
input does not equal "foo bar baz"; the interior opening quote before baz
survives, because quote stripping only applies at the two ends of the
string and that quote is interior at the time of stripping. -/
theorem normalizeReform_unitcase_ne :
    normalizeReform "  <b>foo bar</b>\n\"baz\"  " ≠ "foo bar baz" := by
  decide

/-- C3 (amended): the normalization of the input with two leading spaces,
bold markup, a literal newline, a quoted baz and two trailing spaces
returns exactly the text foo bar followed by a space, a double quote and
baz: markup and newlines are gone, the boundary quote and whitespace are
stripped, but the interior opening quote before baz remains. -/
theorem normalizeReform_unitcase :
    normalizeReform "  <b>foo bar</b>\n\"baz\"  " = "foo bar \"baz" ∧
    (normalizeReform "  <b>foo bar</b>\n\"baz\"  ").data.contains '<' = false ∧
    (normalizeReform "  <b>foo bar</b>\n\"baz\"  ").data.contains '>' = false ∧
    (normalizeReform "  <b>foo bar</b>\n\"baz\"  ").data.contains '\n' = false := by
  decide

/-- C4 (code bug, evaluated at the failing input): a raw reformulation
output that is nonempty before normalization but empty after it - here a
bare pair of markup tags - passes the code's pre-normalization emptiness
guard, so the search query becomes the empty normalized string instead of
falling back to the original question as the spec requires. -/
theorem chooseSearchQuery_empty_normalization :
    strTrim "<b></b>" ≠ "" ∧
    normalizeReform "<b></b>" = "" ∧
    chooseSearchQuery "what is the capital of France" (some "<b></b>") = "" ∧
    chooseSearchQuery "what is the capital of France" (some "<b></b>") ≠
      "what is the capital of France" := by
  decide

/-- C8: the turn-submitted reset empties the in-progress thinking and
answer buffers, sets the phase flag back to Thinking, and leaves the
published sources untouched. -/
theorem turnSubmittedReset_resets_buffers_keeps_sources (st : StreamingState) :
    (turnSubmittedReset st).thinking = "" ∧
    (turnSubmittedReset st).content = "" ∧
    (turnSubmittedReset st).isThinking = true ∧
    (turnSubmittedReset st).sources = st.sources :=
  ⟨rfl, rfl, rfl, rfl⟩

/-- C10: on an ok response whose body has no results field (or a null one),
performSearch publishes an empty result list, records no error, and
returns a stream that yields nothing; being a total function of the
outcome, it raises nothing. -/
theorem performSearch_missing_results_field (st : SearchState) :
    (performSearch (.success none) st).1.searchResults = [] ∧
    (performSearch (.success none) st).1.searchError = none ∧
    (performSearch (.success none) st).2 = [] := by
  refine ⟨rfl, rfl, ?_⟩
  simp [performSearch, createResultStream]

/-- C6: on every failure outcome performSearch returns an empty stream
instead of raising, and records an error message: the server-supplied
details text when the non-ok response carried one, the generic request
failure text when it did not, and the thrown Error's own message for a
network error or malformed body. -/
theorem performSearch_failure_empty_and_error (st : SearchState) (o : FetchOutcome)
    (h : o.isFailure = true) :
    (performSearch o st).2 = [] ∧
    ((performSearch o st).1.searchError).isSome = true ∧
    (∀ d, o = .httpFailure (some d) →
      (performSearch o st).1.searchError = some d) ∧
    (o = .httpFailure none →
      (performSearch o st).1.searchError = some "Search request failed") ∧
    (∀ m, o = .thrown m → (performSearch o st).1.searchError = some m) := by
  cases o with
  | success r => simp [FetchOutcome.isFailure] at h
  | httpFailure d =>
    refine ⟨by simp [performSearch, createResultStream], by cases d <;> rfl, ?_, ?_, ?_⟩
    · intro d' hd'
      injection hd' with hd2
      subst hd2
      rfl
    · intro hd'
      injection hd' with hd2
      subst hd2
      rfl
    · intro m hm
      exact absurd hm (by simp)
  | thrown msg =>
    refine ⟨by simp [performSearch, createResultStream], rfl, ?_, ?_, ?_⟩
    · intro d' hd'
      exact absurd hd' (by simp)
    · intro hd'
      exact absurd hd' (by simp)
    · intro m hm
      injection hm with hm2
      subst hm2
      rfl

/-- Witness for C6 at Scenario 4: a non-ok response whose body carries the
details text "rate limited" produces an empty stream and surfaces exactly
that text. -/
theorem performSearch_failure_empty_and_error_witness :
    (performSearch (.httpFailure (some "rate limited")) ⟨false, [], none⟩).2 = [] ∧
    (performSearch (.httpFailure (some "rate limited")) ⟨false, [], none⟩).1.searchError
      = some "rate limited" :=
  ⟨(performSearch_failure_empty_and_error ⟨false, [], none⟩
      (.httpFailure (some "rate limited")) (by decide)).1,
   (performSearch_failure_empty_and_error ⟨false, [], none⟩
      (.httpFailure (some "rate limited")) (by decide)).2.2.1 "rate limited" rfl⟩

/-- C7: after a failed search the sources published to the streaming state
are exactly the previously accumulated ones: the failure stream yields
nothing, so the accumulation loop never publishes, and nothing else resets
the field. -/
theorem currentSources_unchanged_on_search_failure (st : SearchState)
    (o : FetchOutcome) (prev : List SearchResult) (h : o.isFailure = true) :
    sourcesAfterStream prev (performSearch o st).2 = prev := by
  cases o with
  | success r => simp [FetchOutcome.isFailure] at h
  | httpFailure d => simp [sourcesAfterStream, performSearch, createResultStream]
  | thrown m => simp [sourcesAfterStream, performSearch, createResultStream]

/-- Witness for C7: a network failure leaves a previously published
one-element source list untouched. -/
theorem currentSources_unchanged_on_search_failure_witness :
    sourcesAfterStream [⟨"t", "u", "c", 1, none⟩]
        (performSearch (.thrown "Failed to fetch") ⟨false, [], none⟩).2 =
      [⟨"t", "u", "c", 1, none⟩] :=
  currentSources_unchanged_on_search_failure ⟨false, [], none⟩
    (.thrown "Failed to fetch") [⟨"t", "u", "c", 1, none⟩] (by decide)

/-- C5: the produced search stream is ordered nonincreasingly by score,
and for every score value the results carrying exactly that score appear
in the same relative order as in the input list (stability of the sort). -/
theorem createResultStream_sorted_and_stable (l : List SearchResult) :
    (createResultStream l).Pairwise (fun a b => b.score ≤ a.score) ∧
    ∀ s : ℚ, (createResultStream l).filter (fun r => decide (r.score = s)) =
      l.filter (fun r => decide (r.score = s)) := by
  have htrans : ∀ (a b c : SearchResult),
      (fun x y => decide (y.score ≤ x.score)) a b →
      (fun x y => decide (y.score ≤ x.score)) b c →
      (fun x y => decide (y.score ≤ x.score)) a c := by
    intro a b c hab hbc
    simp only [decide_eq_true_eq] at hab hbc ⊢
    exact le_trans hbc hab
  have htotal : ∀ (a b : SearchResult),
      ((fun x y => decide (y.score ≤ x.score)) a b ||
       (fun x y => decide (y.score ≤ x.score)) b a) := by
    intro a b
    rcases le_total a.score b.score with h | h <;> simp [h]
  constructor
  · have hs := List.sorted_mergeSort htrans htotal l
    exact hs.imp (fun h => of_decide_eq_true h)
  · intro s
    have h2 : ∀ (m : List SearchResult),
        (m.filter (fun r => decide (r.score = s))).filter
          (fun r => decide (r.score = s)) = m.filter (fun r => decide (r.score = s)) := by
      intro m
      apply List.filter_eq_self.mpr
      intro a ha
      exact (List.mem_filter.mp ha).2
    have hpair : (l.filter (fun r => decide (r.score = s))).Pairwise
        (fun a b => decide (b.score ≤ a.score)) := by
      apply List.pairwise_of_forall_mem_list
      intro a ha b hb
      have ha2 : a.score = s := by
        have := (List.mem_filter.mp ha).2
        simpa using this
      have hb2 : b.score = s := by
        have := (List.mem_filter.mp hb).2
        simpa using this
      simp [ha2, hb2]
    have h1 : List.Sublist (l.filter (fun r => decide (r.score = s)))
        (createResultStream l) :=
      List.sublist_mergeSort htrans htotal hpair (List.filter_sublist l)
    have h3 : List.Sublist (l.filter (fun r => decide (r.score = s)))
        ((createResultStream l).filter (fun r => decide (r.score = s))) := by
      have hf := h1.filter (fun r => decide (r.score = s))
      rwa [h2] at hf
    have h4 : ((createResultStream l).filter (fun r => decide (r.score = s))).length =
        (l.filter (fun r => decide (r.score = s))).length :=
      ((List.mergeSort_perm l _).filter _).length_eq
    exact (h3.eq_of_length h4.symm).symm

/-- C1 counterexample: on a buffer holding an opening delimiter with no
close and text before the delimiter, the streaming recomputation's thinking
text is the whole buffer with the first opening tag removed and trimmed,
not just the text after the opening delimiter (trimmed or not). -/
theorem chatChunkStep_keeps_text_before_open :
    (chatChunkStep ⟨"", "", true, []⟩ "x <think> y ").thinking = "x  y" ∧
    ("x  y" : String) ≠ " y " ∧ ("x  y" : String) ≠ "y" := by
  decide

/-- C1 (amended): in the three delimiter situations, with the shown
decompositions being the leftmost ones: a well-formed pair parses to the
trimmed interior as thinking text and the trimmed remainder with the
delimited region removed as answer text (both in parseMessage and in the
streaming recomputation, which also leaves the thinking phase); an opening
delimiter with no matching close makes the streaming recomputation publish
the buffer with the first opening delimiter removed, trimmed (which equals
everything after the delimiter, trimmed, whenever the delimiter starts the
buffer), as thinking text with empty answer text; with no opening
delimiter at all, parseMessage yields no thinking text and the whole
trimmed text as answer text. -/
theorem parsedAssistantContent_characterization (st : StreamingState) (raw : String) :
    (∀ pre mid post : List Char,
      raw.data = pre ++ tagOpen ++ mid ++ tagClose ++ post →
      (∀ i, i < pre.length → leadsWith tagOpen (raw.data.drop i) = false) →
      (∀ j, j < mid.length →
        leadsWith tagClose ((mid ++ tagClose ++ post).drop j) = false) →
      parseMessage raw =
        ⟨some (strOfChars (trimChars mid)), strOfChars (trimChars (pre ++ post))⟩ ∧
      chatChunkStep st raw =
        { st with thinking := strOfChars (trimChars mid),
                  content := strOfChars (trimChars (pre ++ post)),
                  isThinking := false }) ∧
    (∀ pre rest : List Char,
      raw.data = pre ++ tagOpen ++ rest →
      (∀ i, i < pre.length → leadsWith tagOpen (raw.data.drop i) = false) →
      containsSub tagClose rest = false →
      strOfChars (trimChars (pre ++ rest)) =
        strOfChars (trimChars (removeFirst tagOpen raw.data)) ∧
      chatChunkStep st raw =
        { st with thinking := strOfChars (trimChars (pre ++ rest)),
                  content := "", isThinking := true }) ∧
    (containsSub tagOpen raw.data = false →
      parseMessage raw = ⟨none, strTrim raw⟩) := by
  refine ⟨?_, ?_, ?_⟩
  · intro pre mid post hraw hopen hclose
    have hraw2 : raw.data = pre ++ tagOpen ++ (mid ++ tagClose ++ post) := by
      rw [hraw]
      simp only [List.append_assoc]
    have hsplit1 : splitFirst tagOpen raw.data = some (pre, mid ++ tagClose ++ post) := by
      rw [hraw2]
      exact splitFirst_first_occ tagOpen (by decide) pre (mid ++ tagClose ++ post)
        (fun i hi => by have h' := hopen i hi; rw [hraw2] at h'; exact h')
    have hsplit2 : splitFirst tagClose (mid ++ tagClose ++ post) = some (mid, post) :=
      splitFirst_first_occ tagClose (by decide) mid post hclose
    constructor
    · simp only [parseMessage, hsplit1, hsplit2]
    · simp only [chatChunkStep, hsplit1, hsplit2]
  · intro pre rest hraw hopen hnoclose
    have hsplit1 : splitFirst tagOpen raw.data = some (pre, rest) := by
      rw [hraw]
      exact splitFirst_first_occ tagOpen (by decide) pre rest
        (fun i hi => by have h' := hopen i hi; rw [hraw] at h'; exact h')
    have h2 : splitFirst tagClose rest = none := by
      cases hs : splitFirst tagClose rest with
      | none => rfl
      | some pr => simp [containsSub, hs] at hnoclose
    constructor
    · simp only [removeFirst, hsplit1]
    · simp only [chatChunkStep, hsplit1, h2]
  · intro hno
    have h1 : splitFirst tagOpen raw.data = none := by
      cases hs : splitFirst tagOpen raw.data with
      | none => rfl
      | some pr => simp [containsSub, hs] at hno
    simp [parseMessage, h1, strTrim]

/-- Witness for C1 at the spec's round-trip inputs and a plain input. -/
theorem parsedAssistantContent_characterization_witness :
    parseMessage "<think>A</think>B" = ⟨some "A", "B"⟩ ∧
    chatChunkStep ⟨"", "", true, []⟩ "<think>partial" = ⟨"partial", "", true, []⟩ ∧
    parseMessage "no delimiters here" = ⟨none, "no delimiters here"⟩ := by
  refine ⟨?_, ?_, ?_⟩
  · have h1 := (parsedAssistantContent_characterization ⟨"", "", true, []⟩
      "<think>A</think>B").1 [] ['A'] ['B'] (by decide) (by decide) (by decide)
    exact h1.1.trans (by decide)
  · have h2 := (parsedAssistantContent_characterization ⟨"", "", true, []⟩
      "<think>partial").2.1 [] "partial".data (by decide) (by decide) (by decide)
    exact h2.2.trans (by decide)
  · have h3 := (parsedAssistantContent_characterization ⟨"", "", true, []⟩
      "no delimiters here").2.2 (by decide)
    exact h3.trans (by decide)

/-- C9: on a raw text holding more than one delimiter pair (the shown
leftmost pair followed by occurrences of both tags later in the tail),
parsing takes the first matched pair as authoritative: the thinking text is
that pair's trimmed interior, the answer text is the trimmed remainder, and
the later tag occurrences remain as literal text inside the answer text. -/
theorem parseMessage_later_tags_literal (raw : String) (pre mid post : List Char)
    (hraw : raw.data = pre ++ tagOpen ++ mid ++ tagClose ++ post)
    (hopen : ∀ i, i < pre.length → leadsWith tagOpen (raw.data.drop i) = false)
    (hclose : ∀ j, j < mid.length →
      leadsWith tagClose ((mid ++ tagClose ++ post).drop j) = false)
    (hlater : containsSub tagOpen post = true ∧ containsSub tagClose post = true) :
    (parseMessage raw).thinking = some (strOfChars (trimChars mid)) ∧
    (parseMessage raw).content = strOfChars (trimChars (pre ++ post)) ∧
    containsSub tagOpen (parseMessage raw).content.data = true ∧
    containsSub tagClose (parseMessage raw).content.data = true := by
  have hraw2 : raw.data = pre ++ tagOpen ++ (mid ++ tagClose ++ post) := by
    rw [hraw]
    simp only [List.append_assoc]
  have hsplit1 : splitFirst tagOpen raw.data = some (pre, mid ++ tagClose ++ post) := by
    rw [hraw2]
    exact splitFirst_first_occ tagOpen (by decide) pre (mid ++ tagClose ++ post)
      (fun i hi => by have h' := hopen i hi; rw [hraw2] at h'; exact h')
  have hsplit2 : splitFirst tagClose (mid ++ tagClose ++ post) = some (mid, post) :=
    splitFirst_first_occ tagClose (by decide) mid post hclose
  have hpm : parseMessage raw =
      ⟨some (strOfChars (trimChars mid)), strOfChars (trimChars (pre ++ post))⟩ := by
    simp only [parseMessage, hsplit1, hsplit2]
  have hcd : (parseMessage raw).content.data = trimChars (pre ++ post) := by
    rw [hpm]
    rfl
  refine ⟨by rw [hpm], by rw [hpm], ?_, ?_⟩
  · rw [hcd]
    exact containsSub_trimChars tagOpen (pre ++ post) (by decide) (by decide)
      (containsSub_append_left tagOpen pre post (by decide) hlater.1)
  · rw [hcd]
    exact containsSub_trimChars tagClose (pre ++ post) (by decide) (by decide)
      (containsSub_append_left tagClose pre post (by decide) hlater.2)

/-- Witness for C9 at a raw text with two delimiter pairs. -/
theorem parseMessage_later_tags_literal_witness :
    (parseMessage "<think>a</think>x<think>b</think>").thinking = some "a" ∧
    (parseMessage "<think>a</think>x<think>b</think>").content = "x<think>b</think>" ∧
    containsSub tagOpen
      (parseMessage "<think>a</think>x<think>b</think>").content.data = true ∧
    containsSub tagClose
      (parseMessage "<think>a</think>x<think>b</think>").content.data = true := by
  have h := parseMessage_later_tags_literal "<think>a</think>x<think>b</think>"
    [] ['a'] "x<think>b</think>".data (by decide) (by decide) (by decide)
    ⟨by decide, by decide⟩
  exact ⟨h.1.trans (by decide), h.2.1.trans (by decide), h.2.2.1, h.2.2.2⟩

end SandyPplx
